import Mathlib

/-!
Verification development for the labour-reporting storage engine
(`src/app.py`).  The Python source is shallowly embedded: file contents
are strings, the filesystem is an explicit state, XML documents are
trees, stateful operations are explicit state passing or small step
machines, and every fallible library call is an explicit `Option` /
sum-type branch mirroring the `try/except` structure of the source.
-/

namespace LabourReporting

/-! ## Decimal digits: models of Python `str(int)` and `int(str)` -/

/-- One decimal digit character (digits 0–9, `'*'` never reached in use). -/
def digitChar (n : Nat) : Char :=
  match n with
  | 0 => '0' | 1 => '1' | 2 => '2' | 3 => '3' | 4 => '4'
  | 5 => '5' | 6 => '6' | 7 => '7' | 8 => '8' | 9 => '9'
  | _ => '*'

/-- Numeric value of a digit character. -/
def digitVal (c : Char) : Nat := c.toNat - 48

/-- Fuel-indexed decimal rendering (most significant digit first). -/
def toDigitsF : Nat → Nat → List Char
  | 0, _ => []
  | fuel + 1, n =>
    if n < 10 then [digitChar n]
    else toDigitsF fuel (n / 10) ++ [digitChar (n % 10)]

/-- Decimal digit list of `n`, model of Python `str` on a non-negative int. -/
def toDigitsList (n : Nat) : List Char := toDigitsF (n + 1) n

/-- Decimal string of `n`, model of Python `str` on a non-negative int. -/
def toDec (n : Nat) : String := ⟨toDigitsList n⟩

/-- Value of a decimal digit list, model of Python `int` on a digit string. -/
def digitsToNat (l : List Char) : Nat :=
  l.foldl (fun a c => 10 * a + digitVal c) 0

theorem digitVal_digitChar {n : Nat} (h : n < 10) : digitVal (digitChar n) = n := by
  interval_cases n <;> decide

theorem isDigit_digitChar {n : Nat} (h : n < 10) : (digitChar n).isDigit := by
  interval_cases n <;> decide

theorem toDigitsF_succ (f n : Nat) (h10 : ¬ n < 10) :
    toDigitsF (f + 1) n = toDigitsF f (n / 10) ++ [digitChar (n % 10)] := by
  simp only [toDigitsF, if_neg h10]

theorem toDigitsF_stable : ∀ n f, n < f → toDigitsF f n = toDigitsList n := by
  intro n
  induction n using Nat.strong_induction_on with
  | _ n ih =>
    intro f hf
    match f, hf with
    | f + 1, hf =>
      by_cases h10 : n < 10
      · simp [toDigitsF, toDigitsList, h10]
      · have hdiv : n / 10 < n := Nat.div_lt_self (by omega) (by omega)
        have h1 : toDigitsF f (n / 10) = toDigitsList (n / 10) :=
          ih (n / 10) hdiv f (by omega)
        have h2 : toDigitsF n (n / 10) = toDigitsList (n / 10) :=
          ih (n / 10) hdiv n (by omega)
        calc toDigitsF (f + 1) n
            = toDigitsF f (n / 10) ++ [digitChar (n % 10)] := toDigitsF_succ f n h10
          _ = toDigitsList (n / 10) ++ [digitChar (n % 10)] := by rw [h1]
          _ = toDigitsF n (n / 10) ++ [digitChar (n % 10)] := by rw [h2]
          _ = toDigitsF (n + 1) n := (toDigitsF_succ n n h10).symm
          _ = toDigitsList n := rfl

theorem toDigitsList_small {n : Nat} (h : n < 10) :
    toDigitsList n = [digitChar n] := by
  simp [toDigitsList, toDigitsF, h]

theorem toDigitsList_unfold {n : Nat} (h : 10 ≤ n) :
    toDigitsList n = toDigitsList (n / 10) ++ [digitChar (n % 10)] := by
  have hdiv : n / 10 < n := Nat.div_lt_self (by omega) (by omega)
  calc toDigitsList n
      = toDigitsF (n + 1) n := rfl
    _ = toDigitsF n (n / 10) ++ [digitChar (n % 10)] := toDigitsF_succ n n (by omega)
    _ = toDigitsList (n / 10) ++ [digitChar (n % 10)] := by
        rw [toDigitsF_stable (n / 10) n hdiv]

theorem digitsToNat_append (l₁ l₂ : List Char) :
    digitsToNat (l₁ ++ l₂) =
      l₂.foldl (fun a c => 10 * a + digitVal c) (digitsToNat l₁) := by
  simp [digitsToNat, List.foldl_append]

theorem digitsToNat_toDigitsList (n : Nat) :
    digitsToNat (toDigitsList n) = n := by
  induction n using Nat.strong_induction_on with
  | _ n ih =>
    by_cases h : n < 10
    · rw [toDigitsList_small h]
      simp [digitsToNat, digitVal_digitChar h]
    · rw [toDigitsList_unfold (by omega)]
      rw [digitsToNat_append]
      have := ih (n / 10) (Nat.div_lt_self (by omega) (by omega))
      simp only [List.foldl_cons, List.foldl_nil, this]
      rw [digitVal_digitChar (Nat.mod_lt _ (by omega))]
      omega

theorem toDigitsList_all_digits (n : Nat) :
    ∀ c ∈ toDigitsList n, c.isDigit := by
  induction n using Nat.strong_induction_on with
  | _ n ih =>
    by_cases h : n < 10
    · rw [toDigitsList_small h]
      intro c hc
      simp at hc
      subst hc
      exact isDigit_digitChar h
    · rw [toDigitsList_unfold (by omega)]
      intro c hc
      rcases List.mem_append.mp hc with h1 | h1
      · exact ih (n / 10) (Nat.div_lt_self (by omega) (by omega)) c h1
      · simp at h1
        subst h1
        exact isDigit_digitChar (Nat.mod_lt _ (by omega))

theorem toDigitsList_ne_nil (n : Nat) : toDigitsList n ≠ [] := by
  by_cases h : n < 10
  · rw [toDigitsList_small h]; simp
  · rw [toDigitsList_unfold (by omega)]; simp

theorem toDigitsList_length (n : Nat) :
    ∀ k, 10 ^ k ≤ n → n < 10 ^ (k + 1) → (toDigitsList n).length = k + 1 := by
  induction n using Nat.strong_induction_on with
  | _ n ih =>
    intro k hlo hhi
    by_cases h : n < 10
    · have hk : k = 0 := by
        by_contra hk
        have : 10 ^ 1 ≤ 10 ^ k := Nat.pow_le_pow_right (by omega) (by omega)
        simp at this
        omega
      rw [toDigitsList_small h]
      simp [hk]
    · have hk : 1 ≤ k := by
        by_contra hk
        have : k = 0 := by omega
        subst this
        simp at hhi
        omega
      rw [toDigitsList_unfold (by omega)]
      rw [List.length_append]
      have hdiv : n / 10 < n := Nat.div_lt_self (by omega) (by omega)
      have hlo' : 10 ^ (k - 1) ≤ n / 10 := by
        rw [Nat.le_div_iff_mul_le (by omega)]
        calc 10 ^ (k - 1) * 10 = 10 ^ k := by
              rw [← Nat.pow_succ]
              congr 1
              omega
          _ ≤ n := hlo
      have hhi' : n / 10 < 10 ^ (k - 1 + 1) := by
        rw [Nat.div_lt_iff_lt_mul (by omega)]
        calc n < 10 ^ (k + 1) := hhi
          _ = 10 ^ (k - 1 + 1) * 10 := by
              rw [← Nat.pow_succ]
              congr 1
              omega
      have := ih (n / 10) hdiv (k - 1) hlo' hhi'
      simp only [this, List.length_cons, List.length_nil]
      omega

/-! ## Python string helpers: `str.strip`, `str.isdigit` + `int` -/

/-- Whitespace test used by Python `str.strip` (ASCII fragment). -/
def isPySpace (c : Char) : Bool :=
  c = ' ' ∨ c = '\t' ∨ c = '\n' ∨ c = '\r' ∨ c = '\x0b' ∨ c = '\x0c'

/-- Model of Python `str.strip()` on the character list. -/
def stripList (l : List Char) : List Char :=
  ((l.dropWhile isPySpace).reverse.dropWhile isPySpace).reverse

/-- Model of Python `str.strip()`. -/
def pyStrip (s : String) : String := ⟨stripList s.data⟩

/-- Model of Python `str.lstrip()`. -/
def pyLStrip (s : String) : String := ⟨s.data.dropWhile isPySpace⟩

/-- Model of `int(raw) if raw.isdigit() else`-failure: parses a non-empty
all-digit string, returns `none` otherwise. -/
def pyParseNat (s : String) : Option Nat :=
  if s.data ≠ [] ∧ s.data.all Char.isDigit then some (digitsToNat s.data) else none

theorem isDigit_not_space {c : Char} (h : c.isDigit) : isPySpace c = false := by
  simp only [isPySpace]
  rw [decide_eq_false_iff_not]
  intro hc
  rcases hc with h1 | h1 | h1 | h1 | h1 | h1 <;> (subst h1; exact absurd h (by decide))

theorem dropWhile_eq_self_of_not {p : Char → Bool} :
    ∀ l : List Char, (∀ c ∈ l, p c = false) → l.dropWhile p = l := by
  intro l h
  cases l with
  | nil => rfl
  | cons c cs =>
    rw [List.dropWhile_cons_of_neg]
    simp [h c (by simp)]

theorem stripList_eq_self {l : List Char} (h : ∀ c ∈ l, c.isDigit) :
    stripList l = l := by
  have hns : ∀ c ∈ l, isPySpace c = false := fun c hc => isDigit_not_space (h c hc)
  unfold stripList
  rw [dropWhile_eq_self_of_not l hns]
  rw [dropWhile_eq_self_of_not l.reverse (fun c hc => hns c (List.mem_reverse.mp hc))]
  simp

theorem pyStrip_toDec (n : Nat) : pyStrip (toDec n) = toDec n := by
  unfold pyStrip toDec
  rw [stripList_eq_self (toDigitsList_all_digits n)]

theorem pyParseNat_toDec (n : Nat) : pyParseNat (toDec n) = some n := by
  unfold pyParseNat toDec
  rw [if_pos]
  · simp [digitsToNat_toDigitsList]
  · constructor
    · exact toDigitsList_ne_nil n
    · simp only [List.all_eq_true]
      exact fun c hc => toDigitsList_all_digits n c hc

/-! ## Per-day sequence counter (`get_next_occupation_id_for_day`)

The counter file content is a string (`none` = file absent).  Following
the source, one call is two phases:

* an **unlocked** creation phase
  (`if not cfile.exists(): cfile.write_bytes(str(COUNTER_START))`),
  itself two separate atomic actions: the existence check and the write;
* a **locked** read-clamp-increment-write phase (the body of
  `with locked_file(cfile, "r+b")`), a single atomic action since the
  lock serializes it.

A scheduler interleaves the atomic actions of several callers.
-/

/-- `COUNTER_START = 300`. -/
def COUNTER_START : Nat := 300

/-- `current = int(raw) if raw.isdigit() else COUNTER_START;
    if current < COUNTER_START: current = COUNTER_START`
    applied to the stripped decoded file content. -/
def parseClampCtr (s : String) : Nat :=
  max ((pyParseNat (pyStrip s)).getD COUNTER_START) COUNTER_START

/-- The locked read-increment-write section of
`get_next_occupation_id_for_day`: returns the assigned id and the new
file content.  (`locked_file` with `"r+b"` first creates an empty file
when the path is absent, hence the `getD ""`.) -/
def lockedNext (c : Option String) : Nat × String :=
  let cur := parseClampCtr (c.getD "")
  (cur, toDec (cur + 1))

/-- Control state of one `get_next_occupation_id_for_day` caller. -/
inductive Phase where
  | start : Phase
  | willWrite : Phase
  | ready : Phase
  | done : Nat → Phase
deriving DecidableEq

/-- Global state: counter file content (`none` = absent) plus each
caller's control state. -/
structure CtrState where
  file : Option String
  callers : List Phase
deriving DecidableEq

/-- One atomic action of caller `i`:

* `start`: the `cfile.exists()` check (branches on the current file);
* `willWrite`: the unlocked `cfile.write_bytes(b"300")`;
* `ready`: the whole locked section (atomic, the lock is held throughout);
* `done`: call finished, id recorded. -/
def ctrStep (s : CtrState) (i : Nat) : CtrState :=
  match s.callers.get? i with
  | none => s
  | some Phase.start =>
      { s with callers := s.callers.set i (if s.file.isNone then .willWrite else .ready) }
  | some Phase.willWrite =>
      { file := some (toDec COUNTER_START), callers := s.callers.set i .ready }
  | some Phase.ready =>
      let r := lockedNext s.file
      { file := some r.2, callers := s.callers.set i (.done r.1) }
  | some (Phase.done _) => s

/-- Run a schedule (list of caller indices) from a state. -/
def ctrRun (s : CtrState) (sched : List Nat) : CtrState :=
  sched.foldl ctrStep s

/-- `n` fresh callers over a file holding `c`. -/
def ctrInit (n : Nat) (c : Option String) : CtrState :=
  ⟨c, List.replicate n .start⟩

/-- Ids returned by the finished callers, in caller order. -/
def doneIds (ps : List Phase) : List Nat :=
  ps.filterMap fun p => match p with | .done v => some v | _ => none

/-- Number of finished callers. -/
def doneCount (ps : List Phase) : Nat := (doneIds ps).length

/-! ### Bookkeeping lemmas for `List.set` under `filterMap` -/

theorem filterMap_set_none {α β : Type} (proj : α → Option β) :
    ∀ (l : List α) (i : Nat) (p q : α), l.get? i = some p →
      proj p = none → proj q = none →
      (l.set i q).filterMap proj = l.filterMap proj := by
  intro l
  induction l with
  | nil => intro i p q h; simp at h
  | cons hd tl ih =>
    intro i p q h hp hq
    cases i with
    | zero =>
      rw [List.get?_cons_zero] at h
      injection h with h
      subst h
      simp [List.filterMap_cons, hp, hq]
    | succ i =>
      rw [List.get?_cons_succ] at h
      simp only [List.set_cons_succ, List.filterMap_cons]
      rw [ih i p q h hp hq]

theorem filterMap_set_some {α β : Type} (proj : α → Option β) :
    ∀ (l : List α) (i : Nat) (p q : α) (v : β), l.get? i = some p →
      proj p = none → proj q = some v →
      ((l.set i q).filterMap proj).Perm (v :: l.filterMap proj) := by
  intro l
  induction l with
  | nil => intro i p q v h; simp at h
  | cons hd tl ih =>
    intro i p q v h hp hq
    cases i with
    | zero =>
      rw [List.get?_cons_zero] at h
      injection h with h
      subst h
      simp [List.filterMap_cons, hp, hq]
    | succ i =>
      rw [List.get?_cons_succ] at h
      simp only [List.set_cons_succ, List.filterMap_cons]
      cases hhd : proj hd with
      | none => exact ih i p q v h hp hq
      | some w =>
        have h1 := List.Perm.cons w (ih i p q v h hp hq)
        exact h1.trans (List.Perm.swap v w _)

/-- `true` exactly on finished callers. -/
def Phase.isDone : Phase → Bool
  | .done _ => true
  | _ => false

theorem doneIds_replicate_start (n : Nat) :
    doneIds (List.replicate n Phase.start) = [] := by
  induction n with
  | zero => rfl
  | succ n ih =>
    rw [List.replicate_succ]
    exact ih

theorem doneIds_length_all_done :
    ∀ ps : List Phase, (∀ p ∈ ps, p.isDone) → (doneIds ps).length = ps.length := by
  intro ps
  induction ps with
  | nil => intro _; rfl
  | cons hd tl ih =>
    intro h
    have hhd := h hd (by simp)
    cases hd with
    | done v =>
      have htl : (doneIds tl).length = tl.length := ih (fun p hp => h p (by simp [hp]))
      show (doneIds (Phase.done v :: tl)).length = tl.length + 1
      rw [show doneIds (Phase.done v :: tl) = v :: doneIds tl from rfl]
      rw [List.length_cons, htl]
    | start => simp [Phase.isDone] at hhd
    | willWrite => simp [Phase.isDone] at hhd
    | ready => simp [Phase.isDone] at hhd

theorem ctrStep_length (s : CtrState) (i : Nat) :
    (ctrStep s i).callers.length = s.callers.length := by
  unfold ctrStep
  cases hget : s.callers.get? i with
  | none => rfl
  | some p => cases p <;> simp

theorem ctrRun_length (s : CtrState) (sched : List Nat) :
    (ctrRun s sched).callers.length = s.callers.length := by
  induction sched generalizing s with
  | nil => rfl
  | cons i rest ih =>
    show (List.foldl ctrStep (ctrStep s i) rest).callers.length = s.callers.length
    rw [show List.foldl ctrStep (ctrStep s i) rest = ctrRun (ctrStep s i) rest from rfl]
    rw [ih (ctrStep s i), ctrStep_length]

/-- Invariant maintained by every interleaving once the counter file
exists: the file holds the decimal text of `COUNTER_START + #finished`,
no caller is about to do the unlocked creation write, and the ids handed
out so far are exactly `COUNTER_START, …, COUNTER_START + #finished - 1`. -/
def CtrInv (s : CtrState) : Prop :=
  s.file = some (toDec (COUNTER_START + doneCount s.callers)) ∧
  (∀ p ∈ s.callers, p ≠ Phase.willWrite) ∧
  (doneIds s.callers).Perm (List.range' COUNTER_START (doneCount s.callers))

theorem parseClampCtr_toDec {m : Nat} (h : COUNTER_START ≤ m) :
    parseClampCtr (toDec m) = m := by
  unfold parseClampCtr
  rw [pyStrip_toDec, pyParseNat_toDec]
  simp [Option.getD]
  omega

theorem ctrStep_inv (s : CtrState) (i : Nat) (hinv : CtrInv s) :
    CtrInv (ctrStep s i) := by
  obtain ⟨hfile, hww, hperm⟩ := hinv
  unfold ctrStep
  cases hget : s.callers.get? i with
  | none => exact ⟨hfile, hww, hperm⟩
  | some p =>
    have hmem : p ∈ s.callers := List.get?_mem hget
    cases p with
    | willWrite => exact absurd rfl (hww _ hmem)
    | done v => exact ⟨hfile, hww, hperm⟩
    | start =>
      have hnone : s.file.isNone = false := by rw [hfile]; rfl
      simp only [hnone, if_neg]
      have hids : doneIds (s.callers.set i Phase.ready) = doneIds s.callers :=
        filterMap_set_none _ s.callers i Phase.start Phase.ready hget rfl rfl
      refine ⟨?_, ?_, ?_⟩
      · simpa [doneCount, hids] using hfile
      · intro q hq
        rcases List.mem_or_eq_of_mem_set hq with h1 | h1
        · exact hww q h1
        · subst h1; simp
      · simpa [doneCount, hids] using hperm
    | ready =>
      set k := doneCount s.callers with hk
      have hr : lockedNext s.file = (COUNTER_START + k, toDec (COUNTER_START + k + 1)) := by
        rw [hfile]
        unfold lockedNext
        rw [show (some (toDec (COUNTER_START + k))).getD "" = toDec (COUNTER_START + k) from rfl]
        rw [parseClampCtr_toDec (by omega)]
      simp only [hr]
      have hids : (doneIds (s.callers.set i (Phase.done (COUNTER_START + k)))).Perm
          ((COUNTER_START + k) :: doneIds s.callers) :=
        filterMap_set_some _ s.callers i Phase.ready (Phase.done (COUNTER_START + k))
          (COUNTER_START + k) hget rfl rfl
      have hcnt : doneCount (s.callers.set i (Phase.done (COUNTER_START + k))) = k + 1 := by
        unfold doneCount
        rw [hids.length_eq]
        simp [hk, doneCount]
      refine ⟨?_, ?_, ?_⟩
      · simp only [hcnt]
        rfl
      · intro q hq
        rcases List.mem_or_eq_of_mem_set hq with h1 | h1
        · exact hww q h1
        · subst h1; simp
      · rw [hcnt]
        refine hids.trans ?_
        have h1 : (List.range' COUNTER_START (k + 1)) =
            List.range' COUNTER_START k ++ [COUNTER_START + k] := by
          rw [List.range'_1_concat]
        rw [h1]
        exact (List.Perm.cons _ hperm).trans (List.perm_append_singleton _ _).symm

theorem ctrRun_inv (s : CtrState) (sched : List Nat) (hinv : CtrInv s) :
    CtrInv (ctrRun s sched) := by
  induction sched generalizing s with
  | nil => exact hinv
  | cons i rest ih =>
    simp only [ctrRun, List.foldl_cons]
    exact ih (ctrStep s i) (ctrStep_inv s i hinv)

theorem ctrInit_inv (n : Nat) : CtrInv (ctrInit n (some (toDec COUNTER_START))) := by
  refine ⟨?_, ?_, ?_⟩
  · simp [ctrInit, doneCount, doneIds_replicate_start]
  · intro p hp
    rw [List.eq_of_mem_replicate hp]
    simp
  · simp [ctrInit, doneCount, doneIds_replicate_start]

/-- **C1, counterexample.**  The claim "for every set of N concurrent
`nextId(d)` calls the returned ids are `{300,…,300+N-1}` with no
duplicates, *regardless of how the calls interleave*" is false: the
existence check and the `cfile.write_bytes(b"300")` creation write are
performed *outside* the lock, so in the explicit interleaving
`[0, 1, 0, 0, 1, 1]` of two callers on a fresh day — both check, caller 0
creates and completes its locked section, then caller 1's stale creation
write overwrites the counter with `300` — both callers receive id 300. -/
theorem get_next_occupation_id_race_counterexample :
    doneIds (ctrRun (ctrInit 2 none) [0, 1, 0, 0, 1, 1]).callers = [300, 300] := by
  rfl

/-- **C1** (amended).  Provided the counter file for the day already
exists holding the base value `300` when the calls begin (so the
unlocked creation step of `get_next_occupation_id_for_day` is a no-op
and the lock serializes everything), every interleaving of `n`
concurrent `nextId(d)` calls that runs all callers to completion hands
out exactly the ids `{300, 301, …, 300+n-1}`, with no duplicates and no
gaps; two such callers never receive the same id. -/
theorem get_next_occupation_id_concurrent_distinct (n : Nat) (sched : List Nat)
    (hall : ∀ p ∈ (ctrRun (ctrInit n (some (toDec COUNTER_START))) sched).callers,
      p.isDone) :
    (doneIds (ctrRun (ctrInit n (some (toDec COUNTER_START))) sched).callers).Perm
      (List.range' COUNTER_START n) := by
  have hinv := ctrRun_inv _ sched (ctrInit_inv n)
  obtain ⟨_, _, hperm⟩ := hinv
  have hlen : (ctrRun (ctrInit n (some (toDec COUNTER_START))) sched).callers.length = n := by
    rw [ctrRun_length]
    simp [ctrInit]
  have hcnt : doneCount (ctrRun (ctrInit n (some (toDec COUNTER_START))) sched).callers = n := by
    unfold doneCount
    rw [doneIds_length_all_done _ hall, hlen]
  rw [hcnt] at hperm
  exact hperm

/-- Witness for the amended C1 theorem: two callers run to completion in
the interleaving `[0, 1, 0, 1]` over a pre-existing counter file. -/
theorem get_next_occupation_id_concurrent_distinct_witness :
    (doneIds (ctrRun (ctrInit 2 (some (toDec COUNTER_START))) [0, 1, 0, 1]).callers).Perm
      (List.range' COUNTER_START 2) :=
  get_next_occupation_id_concurrent_distinct 2 [0, 1, 0, 1] (by decide)

/-- **C2.**  Postcondition of a single `get_next_occupation_id_for_day`
call (run to completion, schedule `[0,0,0]` of its three atomic
actions): if the counter file is absent it is created holding `300`; the
call returns `r = max(stored, 300)` where an unparsable stored value
counts as `300`; and it leaves the file containing exactly the decimal
text of `r + 1`.  In particular the first call on a fresh day
(`c = none`) returns `300` and leaves the file containing `"301"`. -/
theorem get_next_occupation_id_single_post (c : Option String) :
    doneIds (ctrRun (ctrInit 1 c) [0, 0, 0]).callers =
      [parseClampCtr (c.getD (toDec COUNTER_START))] ∧
    (ctrRun (ctrInit 1 c) [0, 0, 0]).file =
      some (toDec (parseClampCtr (c.getD (toDec COUNTER_START)) + 1)) ∧
    (c = none →
      parseClampCtr (c.getD (toDec COUNTER_START)) = 300 ∧
      (ctrRun (ctrInit 1 c) [0, 0, 0]).file = some "301") := by
  cases c with
  | none =>
    refine ⟨by rfl, by rfl, fun _ => ⟨by rfl, by rfl⟩⟩
  | some s =>
    have hrun : ctrRun (ctrInit 1 (some s)) [0, 0, 0] =
        ⟨some (toDec (parseClampCtr s + 1)), [Phase.done (parseClampCtr s)]⟩ := by
      show ctrStep (ctrStep (ctrStep (ctrInit 1 (some s)) 0) 0) 0 = _
      rw [show ctrStep (ctrInit 1 (some s)) 0 = ⟨some s, [Phase.ready]⟩ from rfl]
      rw [show ctrStep (⟨some s, [Phase.ready]⟩ : CtrState) 0 =
        ⟨some (toDec (parseClampCtr s + 1)), [Phase.done (parseClampCtr s)]⟩ from rfl]
      rfl
    rw [hrun]
    refine ⟨rfl, rfl, fun h => absurd h (by simp)⟩

/-- Witness for C2 at the fresh-day input `c = none`. -/
theorem get_next_occupation_id_single_post_witness :
    (ctrRun (ctrInit 1 (none : Option String)) [0, 0, 0]).file = some "301" :=
  ((get_next_occupation_id_single_post none).2.2 rfl).2

/-! ## Atomic file writer (`atomic_write_bytes`)

The filesystem is a map from paths to file contents (`none` = absent).
`atomic_write_bytes` performs two effectful steps: write the full
payload to a sibling temporary file, then `os.replace` it onto the
target.  An interrupted run is a run of a strict prefix of the steps. -/

/-- Filesystem state: path → content. -/
def Fs : Type := String → Option String

/-- Write (create or truncate-and-replace) one file. -/
def fsWrite (fs : Fs) (p v : String) : Fs :=
  fun q => if q = p then some v else fs q

/-- `os.replace src dst`: atomic rename. -/
def fsReplace (fs : Fs) (src dst : String) : Fs :=
  fun q => if q = dst then fs src else if q = src then none else fs q

/-- `path.with_suffix(path.suffix + ".tmp-" + uuid4().hex)`; the uuid is
a nonce parameter. -/
def tmpName (path nonce : String) : String := path ++ ".tmp-" ++ nonce

/-- State after the first step of `atomic_write_bytes`
(`tmp.write_bytes(content)`). -/
def atomicWriteTmp (fs : Fs) (path content nonce : String) : Fs :=
  fsWrite fs (tmpName path nonce) content

/-- State after the full `atomic_write_bytes(path, content)`
(`os.replace(tmp, path)` after the temp write). -/
def atomic_write_bytes (fs : Fs) (path content nonce : String) : Fs :=
  fsReplace (atomicWriteTmp fs path content nonce) (tmpName path nonce) path

theorem tmpName_ne_path (path nonce : String) : tmpName path nonce ≠ path := by
  intro h
  have hlen := congrArg String.length h
  rw [tmpName] at hlen
  rw [String.length_append, String.length_append] at hlen
  have : (".tmp-" : String).length = 5 := rfl
  omega

/-- **C5.**  `atomic_write_bytes` writes the payload to a uniquely named
sibling temporary file (distinct nonces give distinct temp names, and
the temp name never equals the target) and installs it with a single
atomic rename.  Interrupted before the rename, the target's content is
byte-for-byte unchanged; after the rename it is exactly the new payload.
Every intermediate state thus shows the reader either the complete old
or the complete new content, never a partial write. -/
theorem atomic_write_bytes_atomic (fs : Fs) (path content nonce : String) :
    tmpName path nonce ≠ path ∧
    atomicWriteTmp fs path content nonce path = fs path ∧
    atomic_write_bytes fs path content nonce path = some content ∧
    (∀ n₁ n₂ : String, tmpName path n₁ = tmpName path n₂ → n₁ = n₂) := by
  refine ⟨tmpName_ne_path path nonce, ?_, ?_, ?_⟩
  · unfold atomicWriteTmp fsWrite
    rw [if_neg (fun h => tmpName_ne_path path nonce h.symm)]
  · unfold atomic_write_bytes fsReplace atomicWriteTmp fsWrite
    rw [if_pos rfl, if_pos rfl]
  · intro n₁ n₂ h
    have hdata := congrArg String.data h
    unfold tmpName at hdata
    rw [String.data_append, String.data_append, String.data_append,
      String.data_append] at hdata
    rw [List.append_assoc, List.append_assoc] at hdata
    have h2 := List.append_cancel_left hdata
    have h3 := List.append_cancel_left h2
    exact String.ext h3

/-- Witness for C5 at a concrete filesystem, path, payload and nonces. -/
theorem atomic_write_bytes_atomic_witness :
    atomic_write_bytes (fun _ => none) "data/f.xml" "payload" "abcd" "data/f.xml" =
      some "payload" ∧ ("n1" : String) = "n1" :=
  ⟨(atomic_write_bytes_atomic (fun _ => none) "data/f.xml" "payload" "abcd").2.2.1,
   (atomic_write_bytes_atomic (fun _ => none) "data/f.xml" "payload" "abcd").2.2.2
     "n1" "n1" rfl⟩

/-! ## XML documents

`xml.etree.ElementTree` elements are trees: a tag, an attribute list
(insertion-ordered, as in Python dicts), optional text, and an ordered
child list.  A file's byte content, as seen through the source's
`lstrip(b"\x00").lstrip()`-then-`ET.fromstring` step, is abstracted by
`FileContent`: empty bytes, bytes that (after stripping the padding)
parse to a root element, or non-empty bytes that fail to parse.  The
source's `try/except` around `fromstring` is the `garbage` branch; its
serialize-then-write step stores the updated tree.  (`ET` round-trips
the trees the program builds, up to empty text versus absent text — a
difference invisible to the read side, whose `_safe_text` treats `None`
and `""` identically.) -/

/-- An `xml.etree.ElementTree.Element`. -/
structure XmlElem where
  tag : String
  attrib : List (String × String)
  text : Option String
  children : List XmlElem

/-- `elem.find(tag)`: first *direct* child with the given tag. -/
def findChild (e : XmlElem) (t : String) : Option XmlElem :=
  e.children.find? fun c => c.tag = t

/-- `elem.attrib.get(key)`. -/
def attrGet (e : XmlElem) (key : String) : Option String :=
  (e.attrib.find? fun kv => kv.1 = key).map Prod.snd

/-- One file's bytes as the parser sees them. -/
inductive FileContent where
  | empty : FileContent
  | parsed : XmlElem → FileContent
  | garbage : FileContent

/-- `TIMEZONE = "Australia/Sydney"`. -/
def TIMEZONE : String := "Australia/Sydney"

/-- The fixed `entities` envelope built by `append_to_daily_all` and
`build_entities_xml_with_one`. -/
def freshEntities (cs : List XmlElem) : XmlElem :=
  ⟨"entities",
   [("exchangeInterface", "OCCUPATION_IN"), ("externalSystem", ""), ("timezone", TIMEZONE)],
   none, cs⟩

/-! ## Aggregate log appender (`append_to_daily_all`) -/

/-- `append_to_daily_all(day, occupation_elem)` acting on the day file's
content (`none` = file absent; opening absent with `"w+b"` gives size 0).
Branches mirror the source: size 0 → fresh envelope; parse failure or
root tag ≠ `entities` → discard and start fresh; otherwise keep the
parsed root (its own attributes included) and append the new element as
last child.  The updated envelope is re-serialized over the file. -/
def append_to_daily_all (file : Option FileContent) (occ : XmlElem) : FileContent :=
  match file.getD .empty with
  | .empty => .parsed (freshEntities [occ])
  | .garbage => .parsed (freshEntities [occ])
  | .parsed root =>
    if root.tag = "entities" then
      .parsed { root with children := root.children ++ [occ] }
    else
      .parsed (freshEntities [occ])

/-- **C3.**  If the day's aggregate file content parses as an `entities`
envelope with children `c₁ … cₙ`, then after `append_to_daily_all` the
content parses as the same envelope (same tag, attributes, text) whose
children are exactly `c₁ … cₙ` followed by the new record, in order; and
appending two records in sequence starting from an absent file yields
one envelope containing exactly both records as children, in order. -/
theorem append_to_daily_all_preserves_children (root : XmlElem) (r : XmlElem)
    (htag : root.tag = "entities") :
    append_to_daily_all (some (.parsed root)) r =
      .parsed ⟨root.tag, root.attrib, root.text, root.children ++ [r]⟩ ∧
    (∀ r₁ r₂ : XmlElem,
      append_to_daily_all (some (append_to_daily_all none r₁)) r₂ =
        .parsed (freshEntities [r₁, r₂])) := by
  constructor
  · unfold append_to_daily_all
    simp only [Option.getD, if_pos htag]
  · intro r₁ r₂
    rfl

/-- Witness for C3 on a concrete envelope with two existing children. -/
theorem append_to_daily_all_preserves_children_witness :
    append_to_daily_all
        (some (.parsed ⟨"entities", [], none,
          [⟨"occupation", [("id", "300")], none, []⟩,
           ⟨"occupation", [("id", "301")], none, []⟩]⟩))
        ⟨"occupation", [("id", "302")], none, []⟩ =
      .parsed ⟨"entities", [], none,
        [⟨"occupation", [("id", "300")], none, []⟩,
         ⟨"occupation", [("id", "301")], none, []⟩,
         ⟨"occupation", [("id", "302")], none, []⟩]⟩ :=
  (append_to_daily_all_preserves_children _ _ rfl).1

/-- **C4.**  If the day's aggregate file holds non-empty bytes that fail
to parse (after stripping the null/whitespace padding), or parse to a
root whose tag is not `entities`, then `append_to_daily_all` does not
propagate any error — the parse failure is consumed by the
`try/except` branch, which is total here — and leaves the file holding a
fresh `entities` envelope with the fixed
`exchangeInterface`/`externalSystem`/`timezone` attributes containing
only the new record. -/
theorem append_to_daily_all_corruption_recovery (r : XmlElem) :
    append_to_daily_all (some .garbage) r = .parsed (freshEntities [r]) ∧
    (∀ root : XmlElem, root.tag ≠ "entities" →
      append_to_daily_all (some (.parsed root)) r = .parsed (freshEntities [r])) := by
  refine ⟨rfl, fun root htag => ?_⟩
  unfold append_to_daily_all
  simp only [Option.getD, if_neg htag]

/-- Witness for C4: corrupt bytes and a wrong-root document, each
followed by an append of a concrete record. -/
theorem append_to_daily_all_corruption_recovery_witness :
    append_to_daily_all (some .garbage) ⟨"occupation", [("id", "300")], none, []⟩ =
      .parsed (freshEntities [⟨"occupation", [("id", "300")], none, []⟩]) ∧
    append_to_daily_all (some (.parsed ⟨"wrongRoot", [], none, []⟩))
        ⟨"occupation", [("id", "300")], none, []⟩ =
      .parsed (freshEntities [⟨"occupation", [("id", "300")], none, []⟩]) :=
  ⟨(append_to_daily_all_corruption_recovery _).1,
   (append_to_daily_all_corruption_recovery _).2 ⟨"wrongRoot", [], none, []⟩ (by
     intro h
     exact absurd (congrArg String.data h) (by decide))⟩

/-! ## Date-times in the fixed zone

`now_sydney()` values and the strings `fmt_dt` / `strptime` exchange.
`pytz.localize` (with its default `is_dst=False`) never raises and does
not change the wall-clock fields, so a naive field record suffices:
`.date()` and `%H:%M:%S` read the fields unchanged. -/

/-- A wall-clock date-time in the fixed `Australia/Sydney` zone. -/
structure SydDateTime where
  year : Nat
  month : Nat
  day : Nat
  hour : Nat
  minute : Nat
  second : Nat
deriving DecidableEq

/-- A calendar date (what `datetime.date()` yields). -/
structure CalDate where
  year : Nat
  month : Nat
  day : Nat
deriving DecidableEq

/-- `.date()` of a localized datetime. -/
def SydDateTime.toDate (dt : SydDateTime) : CalDate := ⟨dt.year, dt.month, dt.day⟩

def isLeapYear (y : Nat) : Bool := (y % 4 = 0 ∧ y % 100 ≠ 0) ∨ y % 400 = 0

def daysInMonth (y m : Nat) : Nat :=
  match m with
  | 1 => 31 | 2 => if isLeapYear y then 29 else 28 | 3 => 31 | 4 => 30
  | 5 => 31 | 6 => 30 | 7 => 31 | 8 => 31 | 9 => 30 | 10 => 31
  | 11 => 30 | 12 => 31 | _ => 0

/-- The `datetime` constructor's validity check (applied by `strptime`). -/
def validDT (dt : SydDateTime) : Bool :=
  1 ≤ dt.year ∧ dt.year ≤ 9999 ∧ 1 ≤ dt.month ∧ dt.month ≤ 12 ∧
  1 ≤ dt.day ∧ dt.day ≤ daysInMonth dt.year dt.month ∧
  dt.hour ≤ 23 ∧ dt.minute ≤ 59 ∧ dt.second ≤ 59

theorem daysInMonth_le (y m : Nat) : daysInMonth y m ≤ 31 := by
  unfold daysInMonth
  split <;> first | omega | (split <;> omega)

/-- Two-digit zero-padded decimal (strftime `%m`, `%d`, `%H`, `%M`, `%S`). -/
def pad2 (n : Nat) : List Char :=
  if n < 10 then '0' :: toDigitsList n else toDigitsList n

/-- `fmt_dt`: `dt.strftime("%Y-%m-%d %H:%M:%S")`. -/
def fmt_dt (dt : SydDateTime) : String :=
  ⟨toDigitsList dt.year ++ '-' ::
    (pad2 dt.month ++ '-' ::
      (pad2 dt.day ++ ' ' ::
        (pad2 dt.hour ++ ':' ::
          (pad2 dt.minute ++ ':' :: pad2 dt.second))))⟩

/-- `occ_dt.strftime("%H:%M:%S")` (the read side's `Time` column). -/
def fmtTime (dt : SydDateTime) : String :=
  ⟨pad2 dt.hour ++ ':' :: (pad2 dt.minute ++ ':' :: pad2 dt.second)⟩

/-- Greedy run of at most `k` leading digits (a `strptime` `%`-field). -/
def takeDigits : Nat → List Char → List Char × List Char
  | 0, cs => ([], cs)
  | _ + 1, [] => ([], [])
  | k + 1, c :: cs =>
    if c.isDigit then
      let r := takeDigits k cs
      (c :: r.1, r.2)
    else ([], c :: cs)

/-- Parse one numeric `strptime` field of width ≤ `k`. -/
def parseFieldK (k : Nat) (cs : List Char) : Option (Nat × List Char) :=
  match takeDigits k cs with
  | ([], _) => none
  | (ds, rest) => some (digitsToNat ds, rest)

/-- Require one literal character (a literal in the `strptime` format). -/
def expectChar (ch : Char) : List Char → Option (List Char)
  | [] => none
  | c :: cs => if c = ch then some cs else none

/-- `datetime.strptime(s, "%Y-%m-%d %H:%M:%S")`: `none` models the
`ValueError` branch. -/
def strptimeDT (s : String) : Option SydDateTime := do
  let yr ← parseFieldK 4 s.data
  let r2 ← expectChar '-' yr.2
  let mor ← parseFieldK 2 r2
  let r4 ← expectChar '-' mor.2
  let dr ← parseFieldK 2 r4
  let r6 ← expectChar ' ' dr.2
  let hr ← parseFieldK 2 r6
  let r8 ← expectChar ':' hr.2
  let mir ← parseFieldK 2 r8
  let r10 ← expectChar ':' mir.2
  let secr ← parseFieldK 2 r10
  if secr.2 = [] then
    let dt : SydDateTime := ⟨yr.1, mor.1, dr.1, hr.1, mir.1, secr.1⟩
    if validDT dt then some dt else none
  else none

theorem takeDigits_exact :
    ∀ (ds : List Char) (k : Nat) (rest : List Char), ds.length = k →
      (∀ c ∈ ds, c.isDigit) → takeDigits k (ds ++ rest) = (ds, rest) := by
  intro ds
  induction ds with
  | nil =>
    intro k rest hlen _
    subst hlen
    rfl
  | cons c cs ih =>
    intro k rest hlen hdig
    subst hlen
    simp only [List.cons_append, takeDigits]
    rw [if_pos (hdig c (by simp))]
    have hcs := ih cs.length rest rfl (fun x hx => hdig x (by simp [hx]))
    rw [show cs.append rest = cs ++ rest from rfl, hcs]

theorem parseFieldK_exact {ds : List Char} {k : Nat} (rest : List Char)
    (hlen : ds.length = k) (hne : ds ≠ []) (hdig : ∀ c ∈ ds, c.isDigit) :
    parseFieldK k (ds ++ rest) = some (digitsToNat ds, rest) := by
  unfold parseFieldK
  rw [takeDigits_exact ds k rest hlen hdig]
  cases ds with
  | nil => exact absurd rfl hne
  | cons c cs => rfl

theorem digitsToNat_cons_zero (ds : List Char) :
    digitsToNat ('0' :: ds) = digitsToNat ds := rfl

theorem pad2_spec {n : Nat} (h : n < 100) :
    (pad2 n).length = 2 ∧ (∀ c ∈ pad2 n, c.isDigit) ∧
      digitsToNat (pad2 n) = n ∧ pad2 n ≠ [] := by
  by_cases h10 : n < 10
  · rw [pad2, if_pos h10, toDigitsList_small h10]
    refine ⟨rfl, ?_, ?_, by simp⟩
    · intro c hc
      rcases List.mem_cons.mp hc with h1 | h1
      · subst h1; decide
      · simp at h1
        subst h1
        exact isDigit_digitChar h10
    · rw [show ['0', digitChar n] = '0' :: [digitChar n] from rfl]
      rw [digitsToNat_cons_zero, ← toDigitsList_small h10, digitsToNat_toDigitsList]
  · rw [pad2, if_neg h10]
    refine ⟨?_, toDigitsList_all_digits n, digitsToNat_toDigitsList n, toDigitsList_ne_nil n⟩
    exact toDigitsList_length n 1 (by omega) (by omega : n < 10 ^ (1 + 1))

theorem year4_spec {y : Nat} (hlo : 1000 ≤ y) (hhi : y ≤ 9999) :
    (toDigitsList y).length = 4 :=
  toDigitsList_length y 3 (by omega) (by omega : y < 10 ^ (3 + 1))

theorem expectChar_cons (ch : Char) (rest : List Char) :
    expectChar ch (ch :: rest) = some rest := by
  simp [expectChar]

/-- `strptime` is a left inverse of `fmt_dt` on valid datetimes with a
four-digit year. -/
theorem strptimeDT_fmt_dt (dt : SydDateTime) (hv : validDT dt)
    (hy : 1000 ≤ dt.year) : strptimeDT (fmt_dt dt) = some dt := by
  obtain ⟨y, mo, d, h, mi, sec⟩ := dt
  have hval : (1 ≤ y ∧ y ≤ 9999 ∧ 1 ≤ mo ∧ mo ≤ 12 ∧ 1 ≤ d ∧
      d ≤ daysInMonth y mo ∧ h ≤ 23 ∧ mi ≤ 59 ∧ sec ≤ 59) := by
    simpa [validDT] using hv
  obtain ⟨h1, h2, h3, h4, h5, h6, h7, h8, h9⟩ := hval
  have hdm : daysInMonth y mo ≤ 31 := daysInMonth_le y mo
  have hmo := pad2_spec (show mo < 100 by omega)
  have hd := pad2_spec (show d < 100 by omega)
  have hh := pad2_spec (show h < 100 by omega)
  have hmi := pad2_spec (show mi < 100 by omega)
  have hsec := pad2_spec (show sec < 100 by omega)
  have hyEq : ∀ rest, parseFieldK 4 (toDigitsList y ++ rest) = some (y, rest) := by
    intro rest
    rw [parseFieldK_exact rest (year4_spec hy h2) (toDigitsList_ne_nil y)
      (toDigitsList_all_digits y), digitsToNat_toDigitsList]
  have hmoEq : ∀ rest, parseFieldK 2 (pad2 mo ++ rest) = some (mo, rest) := by
    intro rest
    rw [parseFieldK_exact rest hmo.1 hmo.2.2.2 hmo.2.1, hmo.2.2.1]
  have hdEq : ∀ rest, parseFieldK 2 (pad2 d ++ rest) = some (d, rest) := by
    intro rest
    rw [parseFieldK_exact rest hd.1 hd.2.2.2 hd.2.1, hd.2.2.1]
  have hhEq : ∀ rest, parseFieldK 2 (pad2 h ++ rest) = some (h, rest) := by
    intro rest
    rw [parseFieldK_exact rest hh.1 hh.2.2.2 hh.2.1, hh.2.2.1]
  have hmiEq : ∀ rest, parseFieldK 2 (pad2 mi ++ rest) = some (mi, rest) := by
    intro rest
    rw [parseFieldK_exact rest hmi.1 hmi.2.2.2 hmi.2.1, hmi.2.2.1]
  have hsecEq : parseFieldK 2 (pad2 sec) = some (sec, []) := by
    have := parseFieldK_exact ([] : List Char) hsec.1 hsec.2.2.2 hsec.2.1
    rw [List.append_nil] at this
    rw [this, hsec.2.2.1]
  simp only [strptimeDT, fmt_dt, hyEq, hmoEq, hdEq, hhEq, hmiEq, hsecEq,
    expectChar_cons, Option.bind_eq_bind, Option.some_bind, hv, if_pos, if_true,
    reduceIte]

/-! ## Decimal number values

Durations are modelled as exact rationals.  Python's `round(x, k)`
(round-half-to-even at `k` decimal places) becomes `pyRound`;
`str(round(x, 6))` becomes `renderFloat6` (rendered with a fixed
six-digit fraction — Python's `str` drops trailing zeros, but the sole
reader of this text, `_safe_float` → `float`, is insensitive to that);
`float(s)` becomes `parseFloatList` (plain decimal literals; exponent
forms only arise for hand-crafted garbage input and parse to `none`,
which the enclosing `except` treats like any other failure). -/

/-- Round half to even to an integer. -/
def roundHalfEven (x : ℚ) : ℤ :=
  if x - ⌊x⌋ < 1/2 then ⌊x⌋
  else if 1/2 < x - ⌊x⌋ then ⌊x⌋ + 1
  else if ⌊x⌋ % 2 = 0 then ⌊x⌋ else ⌊x⌋ + 1

/-- Python `round(x, k)`. -/
def pyRound (x : ℚ) (k : Nat) : ℚ := (roundHalfEven (x * 10 ^ k) : ℚ) / 10 ^ k

/-- Fraction digits of `f < 10^6`, zero-padded on the left to width 6. -/
def frac6 (f : Nat) : List Char :=
  List.replicate (6 - (toDigitsList f).length) '0' ++ toDigitsList f

/-- `str(round(x, 6))` for a non-negative value. -/
def renderFloat6 (x : ℚ) : String :=
  let n := (roundHalfEven (x * 10 ^ 6)).toNat
  ⟨toDigitsList (n / 10 ^ 6) ++ '.' :: frac6 (n % 10 ^ 6)⟩

/-- Leading sign of a float literal. -/
def parseSign : List Char → ℚ × List Char
  | '-' :: rest => (-1, rest)
  | '+' :: rest => (1, rest)
  | cs => (1, cs)

/-- `float(s)` on a plain decimal literal (`none` = `ValueError`). -/
def parseFloatList (cs : List Char) : Option ℚ :=
  let s1 := parseSign cs
  let ip := s1.2.takeWhile Char.isDigit
  let t1 := s1.2.dropWhile Char.isDigit
  match t1 with
  | [] => if ip = [] then none else some (s1.1 * digitsToNat ip)
  | '.' :: t2 =>
    let fp := t2.takeWhile Char.isDigit
    let t3 := t2.dropWhile Char.isDigit
    if t3 = [] ∧ ¬(ip = [] ∧ fp = []) then
      some (s1.1 * ((digitsToNat ip : ℚ) + (digitsToNat fp : ℚ) / 10 ^ fp.length))
    else none
  | _ => none

/-- `_safe_float`: `float(x)` with every failure mapped to `0.0`
(`float` itself strips surrounding whitespace). -/
def safeFloat (s : String) : ℚ := (parseFloatList (stripList s.data)).getD 0

theorem parseSign_digit {c : Char} (cs : List Char) (h : c.isDigit) :
    parseSign (c :: cs) = (1, c :: cs) := by
  unfold parseSign
  split
  · rename_i heq
    injection heq with heq1 heq2
    subst heq1
    exact absurd h (by decide)
  · rename_i heq
    injection heq with heq1 heq2
    subst heq1
    exact absurd h (by decide)
  · rfl

theorem takeWhile_digits_exact {p : Char → Bool} :
    ∀ (ds rest : List Char), (∀ c ∈ ds, p c) →
      (∀ c, rest.head? = some c → p c = false) →
      (ds ++ rest).takeWhile p = ds ∧ (ds ++ rest).dropWhile p = rest := by
  intro ds
  induction ds with
  | nil =>
    intro rest _ hrest
    cases rest with
    | nil => exact ⟨rfl, rfl⟩
    | cons c cs =>
      rw [List.nil_append]
      constructor
      · rw [List.takeWhile_cons_of_neg]
        simp [hrest c rfl]
      · rw [List.dropWhile_cons_of_neg]
        simp [hrest c rfl]
  | cons c cs ih =>
    intro rest hds hrest
    have hc : p c := hds c (by simp)
    have hih := ih rest (fun x hx => hds x (by simp [hx])) hrest
    constructor
    · rw [List.cons_append, List.takeWhile_cons_of_pos hc, hih.1]
    · rw [List.cons_append, List.dropWhile_cons_of_pos hc, hih.2]

theorem digitsToNat_replicate_zero :
    ∀ (z : Nat) (ds : List Char),
      digitsToNat (List.replicate z '0' ++ ds) = digitsToNat ds := by
  intro z
  induction z with
  | zero => intro ds; rfl
  | succ z ih =>
    intro ds
    rw [List.replicate_succ, List.cons_append, digitsToNat_cons_zero, ih]

theorem toDigitsList_length_le :
    ∀ (k n : Nat), n < 10 ^ (k + 1) → (toDigitsList n).length ≤ k + 1 := by
  intro k
  induction k with
  | zero =>
    intro n h
    simp at h
    rw [toDigitsList_small h]
    simp
  | succ k ih =>
    intro n h
    by_cases h10 : n < 10
    · rw [toDigitsList_small h10]
      simp
    · rw [toDigitsList_unfold (by omega)]
      rw [List.length_append]
      have hdivlt : n / 10 < 10 ^ (k + 1) := by
        rw [Nat.div_lt_iff_lt_mul (by omega)]
        calc n < 10 ^ (k + 1 + 1) := h
          _ = 10 ^ (k + 1) * 10 := by ring
      have := ih (n / 10) hdivlt
      simp only [List.length_cons, List.length_nil]
      omega

theorem frac6_spec (f : Nat) (hf : f < 10 ^ 6) :
    (frac6 f).length = 6 ∧ (∀ c ∈ frac6 f, c.isDigit) ∧
      digitsToNat (frac6 f) = f := by
  have hlen : (toDigitsList f).length ≤ 6 := toDigitsList_length_le 5 f hf
  refine ⟨?_, ?_, ?_⟩
  · rw [frac6, List.length_append, List.length_replicate]
    omega
  · intro c hc
    rcases List.mem_append.mp hc with h1 | h1
    · rw [List.eq_of_mem_replicate h1]
      decide
    · exact toDigitsList_all_digits f c h1
  · rw [frac6, digitsToNat_replicate_zero, digitsToNat_toDigitsList]

theorem roundHalfEven_nonneg {x : ℚ} (hx : 0 ≤ x) : 0 ≤ roundHalfEven x := by
  have hf : (0 : ℤ) ≤ ⌊x⌋ := Int.le_floor.mpr (by exact_mod_cast hx)
  unfold roundHalfEven
  split
  · exact hf
  · split
    · omega
    · split <;> omega

/-- `float(str(round(x, 6))) = round(x, 6)` for non-negative `x`: the
stored duration text parses back to exactly the 6-decimal-place value. -/
theorem parseFloat_renderFloat6 {x : ℚ} (hx : 0 ≤ x) :
    parseFloatList (renderFloat6 x).data = some (pyRound x 6) := by
  set n := (roundHalfEven (x * 10 ^ 6)).toNat with hn
  have hnn : 0 ≤ roundHalfEven (x * 10 ^ 6) :=
    roundHalfEven_nonneg (by positivity)
  have hip := toDigitsList_all_digits (n / 10 ^ 6)
  have hfr := frac6_spec (n % 10 ^ 6) (Nat.mod_lt _ (by norm_num))
  have hdata : (renderFloat6 x).data =
      toDigitsList (n / 10 ^ 6) ++ '.' :: frac6 (n % 10 ^ 6) := rfl
  rw [hdata]
  obtain ⟨c, cs, hcons⟩ : ∃ c cs, toDigitsList (n / 10 ^ 6) = c :: cs := by
    cases hl : toDigitsList (n / 10 ^ 6) with
    | nil => exact absurd hl (toDigitsList_ne_nil _)
    | cons c cs => exact ⟨c, cs, rfl⟩
  unfold parseFloatList
  rw [hcons, List.cons_append,
    parseSign_digit _ (by
      have := hip c (by rw [hcons]; simp)
      exact this),
    ← List.cons_append, ← hcons]
  have hsplit := takeWhile_digits_exact (toDigitsList (n / 10 ^ 6))
    ('.' :: frac6 (n % 10 ^ 6)) hip (by
      intro c2 hc2
      injection hc2 with hc2
      subst hc2
      decide)
  simp only [hsplit.1, hsplit.2]
  have hsplit2 := takeWhile_digits_exact (frac6 (n % 10 ^ 6)) [] hfr.2.1 (by
    intro c2 hc2
    simp at hc2)
  rw [List.append_nil] at hsplit2
  simp only [hsplit2.1, hsplit2.2]
  rw [if_pos ⟨trivial, by
    intro hand
    exact absurd hand.1 (toDigitsList_ne_nil _)⟩]
  congr 1
  rw [digitsToNat_toDigitsList, hfr.2.2, hfr.1]
  rw [pyRound]
  have hcast : ((roundHalfEven (x * 10 ^ 6) : ℤ) : ℚ) = (n : ℚ) := by
    rw [hn]
    exact_mod_cast (Int.toNat_of_nonneg hnn).symm
  rw [hcast]
  have hsum : (n / 10 ^ 6) * 10 ^ 6 + n % 10 ^ 6 = n := by
    have := Nat.div_add_mod n (10 ^ 6)
    omega
  have hq : ((n / 10 ^ 6 : Nat) : ℚ) * 10 ^ 6 + ((n % 10 ^ 6 : Nat) : ℚ) = (n : ℚ) := by
    exact_mod_cast congrArg (fun t : Nat => (t : ℚ)) hsum
  rw [← hq]
  field_simp

/-! ## Record codec: `build_occupation_element` and the envelope -/

/-- `str.splitlines` worker: `acc` holds the current line reversed.
`\r\n` counts as a single terminator; a trailing terminator yields no
extra empty line. -/
def splitLinesGo (acc : List Char) : List Char → List (List Char)
  | [] => [acc.reverse]
  | '\r' :: '\n' :: rest =>
      acc.reverse :: (if rest.isEmpty then [] else splitLinesGo [] rest)
  | '\n' :: rest =>
      acc.reverse :: (if rest.isEmpty then [] else splitLinesGo [] rest)
  | '\r' :: rest =>
      acc.reverse :: (if rest.isEmpty then [] else splitLinesGo [] rest)
  | c :: rest => splitLinesGo (c :: acc) rest

/-- `str.splitlines` (common terminators). -/
def splitLines (cs : List Char) : List (List Char) :=
  match cs with
  | [] => []
  | _ => splitLinesGo [] cs

/-- `" ".join((comments or "").splitlines()).strip()`. -/
def collapseComment (s : String) : String :=
  pyStrip ⟨List.intercalate [' '] (splitLines s.data)⟩

theorem splitLinesGo_no_newline :
    ∀ (cs acc : List Char), (∀ c ∈ cs, c ≠ '\n' ∧ c ≠ '\r') →
      splitLinesGo acc cs = [acc.reverse ++ cs] := by
  intro cs
  induction cs with
  | nil =>
    intro acc _
    simp [splitLinesGo]
  | cons c rest ih =>
    intro acc h
    have hc := h c (by simp)
    rw [splitLinesGo.eq_def]
    split
    · rename_i heq
      exact absurd heq (List.cons_ne_nil _ _)
    · rename_i rest' heq
      injection heq with h1 h2
      exact absurd h1 hc.2
    · rename_i rest' heq
      injection heq with h1 h2
      exact absurd h1 hc.1
    · rename_i rest' heq
      injection heq with h1 h2
      exact absurd h1 hc.2
    · rename_i c' rest' heq
      injection heq with h1 h2
      subst h1
      subst h2
      rw [ih (c :: acc) (fun x hx => h x (by simp [hx]))]
      simp

/-- On a single-line comment, the collapse step is just `strip`. -/
theorem collapseComment_single_line {s : String}
    (h : ∀ c ∈ s.data, c ≠ '\n' ∧ c ≠ '\r') :
    collapseComment s = pyStrip s := by
  unfold collapseComment splitLines
  cases hs : s.data with
  | nil =>
    have : s = ⟨[]⟩ := by
      cases s
      simp at hs
      rw [hs]
    rw [this]
    rfl
  | cons c rest =>
    rw [show (match (c :: rest : List Char) with
        | [] => ([] : List (List Char))
        | _ => splitLinesGo [] (c :: rest)) = splitLinesGo [] (c :: rest) from rfl]
    rw [splitLinesGo_no_newline (c :: rest) [] (hs ▸ h)]
    rw [show List.intercalate [' '] [[].reverse ++ (c :: rest)] = c :: rest from by
      simp [List.intercalate]]
    rw [← hs]

/-- `build_occupation_element`: the serialized occupation record.  The
duration text is `str(round(float(duration_hours), 6))`, the timestamp
text `fmt_dt(occ_dt)`, the optional `occupation_type` child is omitted
when the stripped qualifier is empty, and the comment is collapsed to a
single line under `occupation_comments/description_description`. -/
def build_occupation_element (occ_id : Nat) (technician_code : String)
    (occ_dt : SydDateTime) (duration_hours : ℚ) (wo_code : String)
    (hour_type : String) (occupation_type : String) (comments : String) : XmlElem :=
  { tag := "occupation"
    attrib := [("id", toDec occ_id)]
    text := none
    children :=
      [⟨"occupation_technician", [("code", technician_code)], none, []⟩,
       ⟨"occupation_occupationDate", [], some (fmt_dt occ_dt), []⟩,
       ⟨"occupation_duration", [], some (renderFloat6 duration_hours), []⟩,
       ⟨"occupation_WO", [("code", wo_code)], none, []⟩,
       ⟨"occupation_hourType", [("code", hour_type)], none, []⟩] ++
      (if pyStrip occupation_type ≠ "" then
        [⟨"occupation_type", [("code", pyStrip occupation_type)], none, []⟩]
       else []) ++
      [⟨"occupation_comments", [], none,
         [⟨"description_description", [], some (collapseComment comments), []⟩]⟩,
       ⟨"occupation_id", [], some (toDec occ_id), []⟩] }

/-- `build_entities_xml_with_one`: one record wrapped in the fixed
envelope (the serialized bytes, seen through the parser abstraction). -/
def build_entities_xml_with_one (occ : XmlElem) : XmlElem := freshEntities [occ]

/-- **C9.**  Every encoded occupation element carries its id twice —
as the `id` attribute of the `occupation` element and as the text of the
`occupation_id` child — and the two values are the same decimal
rendering of the assigned id. -/
theorem build_occupation_element_id_twice (occ_id : Nat) (technician_code : String)
    (occ_dt : SydDateTime) (duration_hours : ℚ) (wo_code : String)
    (hour_type : String) (occupation_type : String) (comments : String) :
    attrGet (build_occupation_element occ_id technician_code occ_dt duration_hours
      wo_code hour_type occupation_type comments) "id" = some (toDec occ_id) ∧
    ((findChild (build_occupation_element occ_id technician_code occ_dt duration_hours
      wo_code hour_type occupation_type comments) "occupation_id").bind
        XmlElem.text) = some (toDec occ_id) := by
  constructor
  · rfl
  · unfold build_occupation_element findChild
    by_cases hot : pyStrip occupation_type ≠ ""
    · rw [if_pos hot]
      rfl
    · rw [if_neg hot]
      rfl

/-! ## Day query (`get_user_entries_for_day`)

A user folder is `none` (absent) or the list of its `*.xml` files'
contents in sorted-name order.  Each file is processed inside a
`try/except: continue`, so every failure is an explicit `none` here. -/

/-- `_safe_text(elem, default)`: `(elem.text or default).strip()` with
`None` elements yielding the default unstripped. -/
def safeText (o : Option XmlElem) (dflt : String) : String :=
  match o with
  | none => dflt
  | some e => pyStrip (if e.text.getD "" = "" then dflt else e.text.getD "")

/-- `_safe_attr(elem, key, default)`. -/
def safeAttr (o : Option XmlElem) (key dflt : String) : String :=
  match o with
  | none => dflt
  | some e => pyStrip (if (attrGet e key).getD "" = "" then dflt else (attrGet e key).getD "")

/-- One row of the summary table. -/
structure Row where
  time : String
  wo : String
  timeType : String
  occType : String
  hours : ℚ
  comment : String
deriving DecidableEq

/-- The per-file body of `get_user_entries_for_day`'s loop: `none` means
the file contributes no row (the `continue` branches and the enclosing
`except`), `some` is the appended row. -/
def decodeUserFile (selected_day : CalDate) (c : FileContent) : Option Row :=
  match c with
  | .empty => none
  | .garbage => none
  | .parsed root =>
    if root.tag = "entities" then
      match findChild root "occupation" with
      | none => none
      | some occ =>
        if safeText (findChild occ "occupation_occupationDate") "" = "" then none
        else
          match strptimeDT (safeText (findChild occ "occupation_occupationDate") "") with
          | none => none
          | some occ_dt =>
            if occ_dt.toDate = selected_day then
              some
                { time := fmtTime occ_dt
                  wo := safeAttr (findChild occ "occupation_WO") "code" ""
                  timeType := safeAttr (findChild occ "occupation_hourType") "code" ""
                  occType := safeAttr (findChild occ "occupation_type") "code" ""
                  hours := pyRound
                    (safeFloat (safeText (findChild occ "occupation_duration") "0")) 3
                  comment := safeText ((findChild occ "occupation_comments").bind
                    (fun ce => findChild ce "description_description")) "" }
            else none
    else none

/-- `df.sort_values(["Time", "WO"], ascending=[True, True])`'s key
order on rows. -/
def rowLE (a b : Row) : Bool :=
  decide (a.time < b.time) || (a.time == b.time && decide (a.wo ≤ b.wo))

/-- Insertion into a sorted row list. -/
def insertRow (r : Row) : List Row → List Row
  | [] => [r]
  | x :: xs => if rowLE r x then r :: x :: xs else x :: insertRow r xs

/-- The sort applied to the collected rows. -/
def sortRows : List Row → List Row
  | [] => []
  | r :: rs => insertRow r (sortRows rs)

theorem insertRow_perm (r : Row) : ∀ l : List Row, (insertRow r l).Perm (r :: l) := by
  intro l
  induction l with
  | nil => exact List.Perm.refl _
  | cons x xs ih =>
    unfold insertRow
    by_cases h : rowLE r x
    · rw [if_pos h]
    · rw [if_neg h]
      exact (List.Perm.cons x ih).trans (List.Perm.swap r x xs)

theorem sortRows_perm : ∀ l : List Row, (sortRows l).Perm l := by
  intro l
  induction l with
  | nil => exact List.Perm.refl _
  | cons r rs ih =>
    unfold sortRows
    exact (insertRow_perm r (sortRows rs)).trans (List.Perm.cons r ih)

/-- The fixed column list of the summary table. -/
def SUMMARY_COLUMNS : List String :=
  ["Time", "WO", "Time Type", "Occ Type", "Hours", "Comment"]

/-- The result of `get_user_entries_for_day`: a table with fixed
columns.  (When no row survives, the source returns a fresh empty
`DataFrame` with the same columns; both cases carry `SUMMARY_COLUMNS`.) -/
structure QueryResult where
  columns : List String
  rows : List Row
deriving DecidableEq

/-- `get_user_entries_for_day(user_folder, selected_day)`. -/
def get_user_entries_for_day (user_folder : Option (List FileContent))
    (selected_day : CalDate) : QueryResult :=
  match user_folder with
  | none => ⟨SUMMARY_COLUMNS, []⟩
  | some files => ⟨SUMMARY_COLUMNS, sortRows (files.filterMap (decodeUserFile selected_day))⟩

/-- **C10.**  `get_user_entries_for_day` is total at its interface: the
embedding is a total function in which every fallible step (parse,
missing element, bad date, bad float) is an explicit skip branch, and
for every folder state — absent (`none`), empty, or holding files with
arbitrary content — the result is a table with exactly the six columns
`Time, WO, Time Type, Occ Type, Hours, Comment`; an absent folder gives
the empty table. -/
theorem get_user_entries_for_day_total (folder : Option (List FileContent))
    (day : CalDate) :
    (get_user_entries_for_day folder day).columns =
      ["Time", "WO", "Time Type", "Occ Type", "Hours", "Comment"] ∧
    (get_user_entries_for_day none day).rows = [] := by
  cases folder <;> exact ⟨rfl, rfl⟩

/-- **C7, counterexample.**  A document whose occupation element is
missing the required work-order code and the duration (and the hour
type and comment) is *not* skipped: it contributes a row with `WO = ""`
and `Hours = 0.0`, contradicting "missing required field (such as the
work-order code, duration …) causes that whole document to be skipped". -/
theorem decode_missing_fields_not_skipped_counterexample :
    decodeUserFile ⟨2026, 1, 8⟩
      (.parsed (freshEntities [⟨"occupation", [], none,
        [⟨"occupation_occupationDate", [], some "2026-01-08 10:00:00", []⟩]⟩])) =
      some ⟨"10:00:00", "", "", "", 0, ""⟩ := by
  have h0 : safeFloat "0" = 0 := by
    show ((1 : ℚ) * ((digitsToNat ['0'] : Nat) : ℚ)) = 0
    rw [show digitsToNat ['0'] = 0 from rfl]
    norm_num
  have h3 : pyRound 0 3 = 0 := by
    unfold pyRound roundHalfEven
    norm_num
  show (some (Row.mk "10:00:00" "" "" "" (pyRound (safeFloat "0") 3) "") : Option Row) =
    some (Row.mk "10:00:00" "" "" "" 0 "")
  rw [h0, h3]

/-- **C7** (amended).  The read side's failure unit is the single
document: XML parse failure, a root tag other than `entities`, a missing
`occupation` element, and a missing/blank/unparsable
`occupation_occupationDate` each cause exactly that document to be
skipped, while missing non-date fields (work order, hour type, duration,
comment) are defaulted to `""`/`0.0` rather than causing a skip; the
remaining documents of the batch are still processed — the resulting
rows are a permutation (the display sort) of the per-file decodes. -/
theorem get_user_entries_per_document_skip :
    (∀ day, decodeUserFile day .garbage = none) ∧
    (∀ day, decodeUserFile day .empty = none) ∧
    (∀ day root, root.tag ≠ "entities" → decodeUserFile day (.parsed root) = none) ∧
    (∀ day root, root.tag = "entities" → findChild root "occupation" = none →
      decodeUserFile day (.parsed root) = none) ∧
    (∀ day root occ, root.tag = "entities" → findChild root "occupation" = some occ →
      findChild occ "occupation_occupationDate" = none →
      decodeUserFile day (.parsed root) = none) ∧
    (∀ day root occ, root.tag = "entities" → findChild root "occupation" = some occ →
      safeText (findChild occ "occupation_occupationDate") "" = "" →
      decodeUserFile day (.parsed root) = none) ∧
    (∀ day root occ dtxt, root.tag = "entities" →
      findChild root "occupation" = some occ →
      safeText (findChild occ "occupation_occupationDate") "" = dtxt →
      strptimeDT dtxt = none →
      decodeUserFile day (.parsed root) = none) ∧
    (∀ files day, ((get_user_entries_for_day (some files) day).rows).Perm
      (files.filterMap (decodeUserFile day))) := by
  have hblank : ∀ day root occ, root.tag = "entities" →
      findChild root "occupation" = some occ →
      safeText (findChild occ "occupation_occupationDate") "" = "" →
      decodeUserFile day (.parsed root) = none := by
    intro day root occ htag hocc hdt
    simp only [decodeUserFile, htag, hocc, hdt, reduceIte]
  refine ⟨fun _ => rfl, fun _ => rfl, ?_, ?_, ?_, hblank, ?_, ?_⟩
  · intro day root htag
    simp only [decodeUserFile]
    rw [if_neg htag]
  · intro day root htag hocc
    simp only [decodeUserFile]
    rw [if_pos htag, hocc]
  · intro day root occ htag hocc hfd
    exact hblank day root occ htag hocc (by rw [hfd]; rfl)
  · intro day root occ dtxt htag hocc hdtxt hparse
    by_cases h0 : dtxt = ""
    · exact hblank day root occ htag hocc (by rw [hdtxt, h0])
    · simp only [decodeUserFile, htag, hocc, hdtxt, h0, hparse, reduceIte]
  · intro files day
    exact sortRows_perm _

/-- Witness for the amended C7 at concrete documents: wrong root tag,
missing occupation element, missing occupation date, and an unparsable
occupation date. -/
theorem get_user_entries_per_document_skip_witness :
    decodeUserFile ⟨2026, 1, 8⟩ (.parsed ⟨"notEntities", [], none, []⟩) = none ∧
    decodeUserFile ⟨2026, 1, 8⟩ (.parsed (freshEntities [])) = none ∧
    decodeUserFile ⟨2026, 1, 8⟩
      (.parsed (freshEntities [⟨"occupation", [], none, []⟩])) = none ∧
    decodeUserFile ⟨2026, 1, 8⟩
      (.parsed (freshEntities [⟨"occupation", [], none,
        [⟨"occupation_occupationDate", [], some "not a date", []⟩]⟩])) = none :=
  ⟨get_user_entries_per_document_skip.2.2.1 ⟨2026, 1, 8⟩ _ (by decide),
   get_user_entries_per_document_skip.2.2.2.1 ⟨2026, 1, 8⟩ _ rfl rfl,
   get_user_entries_per_document_skip.2.2.2.2.1 ⟨2026, 1, 8⟩ _
     ⟨"occupation", [], none, []⟩ rfl rfl rfl,
   get_user_entries_per_document_skip.2.2.2.2.2.2.1 ⟨2026, 1, 8⟩ _
     ⟨"occupation", [], none,
       [⟨"occupation_occupationDate", [], some "not a date", []⟩]⟩
     "not a date" rfl rfl (by decide) (by decide)⟩

/-! ### Day filtering (C8) -/

/-- The day-independent prefix of the per-file decode: the document's
occupation timestamp, if the document parses, has the right root, an
occupation element, and a non-blank well-formed date text. -/
def docTimestamp (c : FileContent) : Option SydDateTime :=
  match c with
  | .empty => none
  | .garbage => none
  | .parsed root =>
    if root.tag = "entities" then
      match findChild root "occupation" with
      | none => none
      | some occ =>
        if safeText (findChild occ "occupation_occupationDate") "" = "" then none
        else strptimeDT (safeText (findChild occ "occupation_occupationDate") "")
    else none

theorem decodeUserFile_isSome_iff (c : FileContent) (day : CalDate) :
    (decodeUserFile day c).isSome ↔
      ∃ dt, docTimestamp c = some dt ∧ dt.toDate = day := by
  cases c with
  | empty => simp [decodeUserFile, docTimestamp]
  | garbage => simp [decodeUserFile, docTimestamp]
  | parsed root =>
    by_cases htag : root.tag = "entities"
    · cases hocc : findChild root "occupation" with
      | none => simp [decodeUserFile, docTimestamp, htag, hocc]
      | some occ =>
        by_cases hdt : safeText (findChild occ "occupation_occupationDate") "" = ""
        · simp [decodeUserFile, docTimestamp, htag, hocc, hdt]
        · cases hp : strptimeDT (safeText (findChild occ "occupation_occupationDate") "") with
          | none => simp [decodeUserFile, docTimestamp, htag, hocc, hdt, hp]
          | some occ_dt =>
            by_cases hday : occ_dt.toDate = day
            · simp [decodeUserFile, docTimestamp, htag, hocc, hdt, hp, hday]
            · simp [decodeUserFile, docTimestamp, htag, hocc, hdt, hp, hday]
    · simp [decodeUserFile, docTimestamp, htag]

/-- The 23:59:59 document used to pin down the day filter. -/
def lateNightDoc : FileContent :=
  .parsed (freshEntities [⟨"occupation", [], none,
    [⟨"occupation_occupationDate", [], some "2026-01-08 23:59:59", []⟩]⟩])

/-- **C8.**  A decoded record contributes a row exactly when its
timestamp's calendar date in the fixed zone equals the selected day;
in particular a record stamped `2026-01-08 23:59:59` appears in the
result for 2026-01-08 and for no other day — never for 2026-01-09. -/
theorem get_user_entries_day_filtering :
    (∀ (c : FileContent) (day : CalDate),
      (decodeUserFile day c).isSome ↔
        ∃ dt, docTimestamp c = some dt ∧ dt.toDate = day) ∧
    (decodeUserFile ⟨2026, 1, 8⟩ lateNightDoc).isSome ∧
    (∀ day : CalDate, day ≠ ⟨2026, 1, 8⟩ → decodeUserFile day lateNightDoc = none) := by
  refine ⟨decodeUserFile_isSome_iff, by decide, ?_⟩
  intro day hday
  by_cases h : (decodeUserFile day lateNightDoc).isSome
  · obtain ⟨dt, hdt, hdate⟩ := (decodeUserFile_isSome_iff lateNightDoc day).mp h
    have hdoc : docTimestamp lateNightDoc = some ⟨2026, 1, 8, 23, 59, 59⟩ := by decide
    rw [hdoc] at hdt
    injection hdt with hdt
    subst hdt
    exact absurd (show day = ⟨2026, 1, 8⟩ by rw [← hdate]; rfl) hday
  · exact Option.not_isSome_iff_eq_none.mp h

/-- Witness for C8 at the neighbouring day 2026-01-09. -/
theorem get_user_entries_day_filtering_witness :
    decodeUserFile ⟨2026, 1, 9⟩ lateNightDoc = none :=
  get_user_entries_day_filtering.2.2 ⟨2026, 1, 9⟩ (by decide)

/-! ### Round-trip infrastructure (C6)

`_safe_text`/`_safe_attr` re-`strip` what `build_occupation_element`
wrote; these lemmas show the written strings are strip-stable (their
ends are digits), so the read side sees them unchanged. -/

theorem stripList_eq_of_ends {l : List Char}
    (hh : ∀ c, l.head? = some c → isPySpace c = false)
    (hg : ∀ c, l.getLast? = some c → isPySpace c = false) :
    stripList l = l := by
  unfold stripList
  have h1 : l.dropWhile isPySpace = l := by
    cases l with
    | nil => rfl
    | cons c cs =>
      rw [List.dropWhile_cons_of_neg]
      simp [hh c rfl]
  rw [h1]
  have h2 : l.reverse.dropWhile isPySpace = l.reverse := by
    cases hr : l.reverse with
    | nil => rfl
    | cons c cs =>
      rw [List.dropWhile_cons_of_neg]
      have hl : l.getLast? = some c := by
        rw [← List.head?_reverse, hr]
        rfl
      simp [hg c hl]
  rw [h2, List.reverse_reverse]

theorem toDigitsList_head_digit (n : Nat) :
    ∀ c, (toDigitsList n).head? = some c → c.isDigit := by
  intro c hc
  have hl := List.eq_cons_of_mem_head?
    (show c ∈ (toDigitsList n).head? from by rw [hc]; rfl)
  have hm : c ∈ toDigitsList n := by rw [hl]; simp
  exact toDigitsList_all_digits n c hm

theorem toDigitsList_getLast_digit (n : Nat) :
    ∀ c, (toDigitsList n).getLast? = some c → c.isDigit := by
  intro c hc
  by_cases h : n < 10
  · rw [toDigitsList_small h] at hc
    simp [List.getLast?] at hc
    rw [← hc]
    exact isDigit_digitChar h
  · rw [toDigitsList_unfold (by omega), List.getLast?_append_cons] at hc
    simp [List.getLast?] at hc
    rw [← hc]
    exact isDigit_digitChar (Nat.mod_lt _ (by omega))

theorem pad2_ne_nil (n : Nat) : pad2 n ≠ [] := by
  unfold pad2
  by_cases h : n < 10
  · rw [if_pos h]; simp
  · rw [if_neg h]; exact toDigitsList_ne_nil n

theorem pad2_getLast_digit (n : Nat) :
    ∀ c, (pad2 n).getLast? = some c → c.isDigit := by
  intro c hc
  unfold pad2 at hc
  by_cases h : n < 10
  · rw [if_pos h, toDigitsList_small h] at hc
    simp [List.getLast?] at hc
    rw [← hc]
    exact isDigit_digitChar h
  · rw [if_neg h] at hc
    exact toDigitsList_getLast_digit n c hc

theorem getLast?_cons_append_cons (a : Char) (l : List Char) (b : Char) (r : List Char) :
    (a :: (l ++ b :: r)).getLast? = (b :: r).getLast? := by
  rw [show a :: (l ++ b :: r) = (a :: l) ++ b :: r from by simp]
  exact List.getLast?_append_cons _ _ _

theorem fmt_dt_getLast (dt : SydDateTime) :
    (fmt_dt dt).data.getLast? = (pad2 dt.second).getLast? := by
  show (toDigitsList dt.year ++ '-' :: (pad2 dt.month ++ '-' :: (pad2 dt.day ++ ' ' ::
    (pad2 dt.hour ++ ':' :: (pad2 dt.minute ++ ':' :: pad2 dt.second))))).getLast? = _
  rw [List.getLast?_append_cons]
  rw [getLast?_cons_append_cons]
  rw [getLast?_cons_append_cons]
  rw [getLast?_cons_append_cons]
  rw [getLast?_cons_append_cons]
  obtain ⟨p, ps, hps⟩ : ∃ p ps, pad2 dt.second = p :: ps := by
    cases hp : pad2 dt.second with
    | nil => exact absurd hp (pad2_ne_nil _)
    | cons p ps => exact ⟨p, ps, rfl⟩
  rw [hps, List.getLast?_cons_cons]

theorem fmt_dt_ne_empty (dt : SydDateTime) : fmt_dt dt ≠ "" := by
  intro h
  have hdata := congrArg String.data h
  rw [show ("" : String).data = [] from rfl] at hdata
  rw [show (fmt_dt dt).data = toDigitsList dt.year ++ '-' :: (pad2 dt.month ++ '-' ::
    (pad2 dt.day ++ ' ' :: (pad2 dt.hour ++ ':' ::
      (pad2 dt.minute ++ ':' :: pad2 dt.second)))) from rfl] at hdata
  exact absurd (List.append_eq_nil.mp hdata).1 (toDigitsList_ne_nil _)

theorem pyStrip_fmt_dt (dt : SydDateTime) : pyStrip (fmt_dt dt) = fmt_dt dt := by
  show (⟨stripList (fmt_dt dt).data⟩ : String) = fmt_dt dt
  rw [stripList_eq_of_ends ?_ ?_]
  · intro c hc
    rw [show (fmt_dt dt).data = toDigitsList dt.year ++ '-' :: (pad2 dt.month ++ '-' ::
      (pad2 dt.day ++ ' ' :: (pad2 dt.hour ++ ':' ::
        (pad2 dt.minute ++ ':' :: pad2 dt.second)))) from rfl] at hc
    rw [List.head?_append_of_ne_nil _ (toDigitsList_ne_nil dt.year)] at hc
    exact isDigit_not_space (toDigitsList_head_digit dt.year c hc)
  · intro c hc
    rw [fmt_dt_getLast dt] at hc
    exact isDigit_not_space (pad2_getLast_digit dt.second c hc)

theorem frac6_ne_nil (f : Nat) : frac6 f ≠ [] := by
  unfold frac6
  intro h
  exact absurd (List.append_eq_nil.mp h).2 (toDigitsList_ne_nil f)

theorem renderFloat6_data (x : ℚ) :
    (renderFloat6 x).data =
      toDigitsList ((roundHalfEven (x * 10 ^ 6)).toNat / 10 ^ 6) ++ '.' ::
        frac6 ((roundHalfEven (x * 10 ^ 6)).toNat % 10 ^ 6) := rfl

theorem renderFloat6_ne_empty (x : ℚ) : renderFloat6 x ≠ "" := by
  intro h
  have hdata := congrArg String.data h
  rw [renderFloat6_data, show ("" : String).data = [] from rfl] at hdata
  exact absurd (List.append_eq_nil.mp hdata).1 (toDigitsList_ne_nil _)

theorem stripList_renderFloat6 (x : ℚ) :
    stripList (renderFloat6 x).data = (renderFloat6 x).data := by
  rw [stripList_eq_of_ends ?_ ?_]
  · intro c hc
    rw [renderFloat6_data,
      List.head?_append_of_ne_nil _ (toDigitsList_ne_nil _)] at hc
    exact isDigit_not_space (toDigitsList_head_digit _ c hc)
  · intro c hc
    rw [renderFloat6_data, List.getLast?_append_cons] at hc
    obtain ⟨p, ps, hps⟩ : ∃ p ps,
        toDigitsList ((roundHalfEven (x * 10 ^ 6)).toNat % 10 ^ 6) = p :: ps := by
      cases hp : toDigitsList ((roundHalfEven (x * 10 ^ 6)).toNat % 10 ^ 6) with
      | nil => exact absurd hp (toDigitsList_ne_nil _)
      | cons p ps => exact ⟨p, ps, rfl⟩
    rw [show frac6 ((roundHalfEven (x * 10 ^ 6)).toNat % 10 ^ 6) =
      List.replicate (6 - (toDigitsList ((roundHalfEven (x * 10 ^ 6)).toNat % 10 ^ 6)).length) '0' ++
        toDigitsList ((roundHalfEven (x * 10 ^ 6)).toNat % 10 ^ 6) from rfl, hps,
      getLast?_cons_append_cons] at hc
    rw [← hps] at hc
    exact isDigit_not_space (toDigitsList_getLast_digit _ c hc)

theorem pyStrip_renderFloat6 (x : ℚ) : pyStrip (renderFloat6 x) = renderFloat6 x := by
  show (⟨stripList (renderFloat6 x).data⟩ : String) = renderFloat6 x
  rw [stripList_renderFloat6]

/-- `float(str(round(x, 6)))` through `_safe_float`. -/
theorem safeFloat_renderFloat6 {x : ℚ} (hx : 0 ≤ x) :
    safeFloat (renderFloat6 x) = pyRound x 6 := by
  unfold safeFloat
  rw [stripList_renderFloat6, parseFloat_renderFloat6 hx]
  rfl

theorem pyStrip_if_default {v : String} (hv : pyStrip v = v) :
    pyStrip (if v = "" then "" else v) = v := by
  by_cases h0 : v = ""
  · rw [if_pos h0, h0]
    rfl
  · rw [if_neg h0]
    exact hv

theorem safeText_some_strip {t : String} {a : List (String × String)}
    {ch : List XmlElem} {v : String} (hv : pyStrip v = v) :
    safeText (some ⟨t, a, some v, ch⟩) "" = v := by
  show pyStrip (if v = "" then "" else v) = v
  exact pyStrip_if_default hv

theorem safeAttr_code {t : String} {tx : Option String} {ch : List XmlElem}
    {v : String} (hv : pyStrip v = v) :
    safeAttr (some ⟨t, [("code", v)], tx, ch⟩) "code" "" = v := by
  show pyStrip (if v = "" then "" else v) = v
  exact pyStrip_if_default hv

/-- Control-flow normal form of the per-file decode on a document that
parses, has the `entities` root, one occupation element, and a
well-formed date on the selected day. -/
theorem decode_parsed_occ (root occ : XmlElem) (day : CalDate) (dt : SydDateTime)
    (htag : root.tag = "entities")
    (hfind : findChild root "occupation" = some occ)
    (dtxt : String)
    (hdtxt : safeText (findChild occ "occupation_occupationDate") "" = dtxt)
    (hne : dtxt ≠ "")
    (hparse : strptimeDT dtxt = some dt)
    (hday : dt.toDate = day) :
    decodeUserFile day (.parsed root) =
      some ⟨fmtTime dt,
        safeAttr (findChild occ "occupation_WO") "code" "",
        safeAttr (findChild occ "occupation_hourType") "code" "",
        safeAttr (findChild occ "occupation_type") "code" "",
        pyRound (safeFloat (safeText (findChild occ "occupation_duration") "0")) 3,
        safeText ((findChild occ "occupation_comments").bind
          (fun ce => findChild ce "description_description")) ""⟩ := by
  simp only [decodeUserFile, htag, hfind, hdtxt, hparse, hday, hne, if_true,
    if_false, reduceIte, reduceCtorEq]

/-- The per-user document written for one submission
(`build_entities_xml_with_one(build_occupation_element(...))`), as the
read side re-parses it. -/
def encodeRecordDoc (occ_id : Nat) (technician_code : String) (occ_dt : SydDateTime)
    (duration_hours : ℚ) (wo_code : String) (hour_type : String)
    (occupation_type : String) (comments : String) : FileContent :=
  .parsed (build_entities_xml_with_one (build_occupation_element occ_id
    technician_code occ_dt duration_hours wo_code hour_type occupation_type comments))

theorem build_occ_findChild_type (occ_id : Nat) (tech : String) (dt : SydDateTime)
    (dur : ℚ) (wo ht ot cm : String) :
    findChild (build_occupation_element occ_id tech dt dur wo ht ot cm)
        "occupation_type" =
      (if pyStrip ot ≠ "" then
        some ⟨"occupation_type", [("code", pyStrip ot)], none, []⟩ else none) := by
  unfold build_occupation_element findChild
  by_cases hP : pyStrip ot ≠ ""
  · rw [if_pos hP, if_pos hP]
    rfl
  · rw [if_neg hP, if_neg hP]
    rfl

theorem build_occ_findChild_comments (occ_id : Nat) (tech : String) (dt : SydDateTime)
    (dur : ℚ) (wo ht ot cm : String) :
    findChild (build_occupation_element occ_id tech dt dur wo ht ot cm)
        "occupation_comments" =
      some ⟨"occupation_comments", [], none,
        [⟨"description_description", [], some (collapseComment cm), []⟩]⟩ := by
  unfold build_occupation_element findChild
  by_cases hP : pyStrip ot ≠ ""
  · rw [if_pos hP]
    rfl
  · rw [if_neg hP]
    rfl

/-- **C6** (amended).  Decoding the encoded single-record document
recovers the time-of-day, work-order code, hour type, occupation type
and comment of every well-formed record exactly — an empty
`occupationType` encodes to an absent `occupation_type` element and
decodes back to an empty qualifier — but the duration is recovered only
up to the reader's 3-decimal rounding: the decoded `Hours` value is
`round(round(duration, 6), 3)`, not the original duration.
(Well-formed: a valid four-digit-year timestamp, non-negative duration,
strip-stable codes and qualifier, and a single-line strip-stable
comment.) -/
theorem decode_encode_round_trip (occ_id : Nat) (tech : String) (dt : SydDateTime)
    (dur : ℚ) (wo hourType occType comment : String)
    (hdt : validDT dt) (hy : 1000 ≤ dt.year) (hdur : 0 ≤ dur)
    (hwo : pyStrip wo = wo) (hht : pyStrip hourType = hourType)
    (hot : pyStrip occType = occType) (hcm : pyStrip comment = comment)
    (hnl : ∀ c ∈ comment.data, c ≠ '\n' ∧ c ≠ '\r') :
    decodeUserFile dt.toDate
        (encodeRecordDoc occ_id tech dt dur wo hourType occType comment) =
      some ⟨fmtTime dt, wo, hourType, occType, pyRound (pyRound dur 6) 3, comment⟩ := by
  have hmain := decode_parsed_occ
    (freshEntities [build_occupation_element occ_id tech dt dur wo hourType occType comment])
    (build_occupation_element occ_id tech dt dur wo hourType occType comment)
    dt.toDate dt rfl rfl (fmt_dt dt)
    (by
      rw [show findChild
        (build_occupation_element occ_id tech dt dur wo hourType occType comment)
        "occupation_occupationDate" =
        some ⟨"occupation_occupationDate", [], some (fmt_dt dt), []⟩ from rfl]
      exact safeText_some_strip (pyStrip_fmt_dt dt))
    (fmt_dt_ne_empty dt) (strptimeDT_fmt_dt dt hdt hy) rfl
  have hWO : safeAttr (findChild
      (build_occupation_element occ_id tech dt dur wo hourType occType comment)
      "occupation_WO") "code" "" = wo := by
    rw [show findChild
      (build_occupation_element occ_id tech dt dur wo hourType occType comment)
      "occupation_WO" = some ⟨"occupation_WO", [("code", wo)], none, []⟩ from rfl]
    exact safeAttr_code hwo
  have hHT : safeAttr (findChild
      (build_occupation_element occ_id tech dt dur wo hourType occType comment)
      "occupation_hourType") "code" "" = hourType := by
    rw [show findChild
      (build_occupation_element occ_id tech dt dur wo hourType occType comment)
      "occupation_hourType" = some ⟨"occupation_hourType", [("code", hourType)], none, []⟩
      from rfl]
    exact safeAttr_code hht
  have hOT : safeAttr (findChild
      (build_occupation_element occ_id tech dt dur wo hourType occType comment)
      "occupation_type") "code" "" = occType := by
    rw [build_occ_findChild_type occ_id tech dt dur wo hourType occType comment]
    by_cases hP : pyStrip occType ≠ ""
    · rw [if_pos hP, hot]
      exact safeAttr_code hot
    · rw [if_neg hP]
      have h0 : occType = "" := by rw [← hot]; exact not_ne_iff.mp hP
      rw [h0]
      rfl
  have hDur : pyRound (safeFloat (safeText (findChild
      (build_occupation_element occ_id tech dt dur wo hourType occType comment)
      "occupation_duration") "0")) 3 = pyRound (pyRound dur 6) 3 := by
    rw [show findChild
      (build_occupation_element occ_id tech dt dur wo hourType occType comment)
      "occupation_duration" = some ⟨"occupation_duration", [], some (renderFloat6 dur), []⟩
      from rfl]
    rw [show safeText
      (some (⟨"occupation_duration", [], some (renderFloat6 dur), []⟩ : XmlElem)) "0" =
        renderFloat6 dur from by
      show pyStrip (if renderFloat6 dur = "" then "0" else renderFloat6 dur) = renderFloat6 dur
      rw [if_neg (renderFloat6_ne_empty dur)]
      exact pyStrip_renderFloat6 dur]
    rw [safeFloat_renderFloat6 hdur]
  have hCom : safeText ((findChild
      (build_occupation_element occ_id tech dt dur wo hourType occType comment)
      "occupation_comments").bind
        (fun ce => findChild ce "description_description")) "" = comment := by
    rw [build_occ_findChild_comments occ_id tech dt dur wo hourType occType comment]
    rw [show Option.bind (some (⟨"occupation_comments", [], none,
      [⟨"description_description", [], some (collapseComment comment), []⟩]⟩ : XmlElem))
      (fun ce => findChild ce "description_description") =
      some ⟨"description_description", [], some (collapseComment comment), []⟩ from rfl]
    rw [collapseComment_single_line hnl, hcm]
    exact safeText_some_strip hcm
  rw [show encodeRecordDoc occ_id tech dt dur wo hourType occType comment =
    FileContent.parsed (freshEntities
      [build_occupation_element occ_id tech dt dur wo hourType occType comment]) from rfl]
  rw [hmain, hWO, hHT, hOT, hDur, hCom]

/-- Witness for the amended C6 at a concrete well-formed record. -/
theorem decode_encode_round_trip_witness :
    decodeUserFile (⟨2026, 1, 8, 10, 0, 0⟩ : SydDateTime).toDate
        (encodeRecordDoc 300 "TECH" ⟨2026, 1, 8, 10, 0, 0⟩ (3/4) "WO-7" "NORMAL" "IN" "done") =
      some ⟨fmtTime ⟨2026, 1, 8, 10, 0, 0⟩, "WO-7", "NORMAL", "IN",
        pyRound (pyRound (3/4) 6) 3, "done"⟩ :=
  decode_encode_round_trip 300 "TECH" ⟨2026, 1, 8, 10, 0, 0⟩ (3/4) "WO-7" "NORMAL" "IN"
    "done" (by decide) (by decide) (by norm_num) rfl rfl rfl rfl (by decide)

/-- **C6, counterexample.**  The stored duration `0.016667` (a value the
data model itself allows: six decimal places, non-negative, arising from
the input `00:01`) does **not** round-trip: the read side re-rounds
`Hours` to three decimals, so the decoded value is `0.017 ≠ 0.016667` —
the claim that decoding recovers the duration field of every well-formed
record is false. -/
theorem round_trip_duration_counterexample :
    (decodeUserFile ⟨2026, 1, 8⟩ (encodeRecordDoc 300 "TECH" ⟨2026, 1, 8, 10, 0, 0⟩
        (16667/1000000) "WO-7" "NORMAL" "" "note")).map Row.hours = some (17/1000) ∧
    (17/1000 : ℚ) ≠ 16667/1000000 := by
  constructor
  · have hmain := decode_parsed_occ
      (freshEntities [build_occupation_element 300 "TECH" ⟨2026, 1, 8, 10, 0, 0⟩
        (16667/1000000) "WO-7" "NORMAL" "" "note"])
      (build_occupation_element 300 "TECH" ⟨2026, 1, 8, 10, 0, 0⟩
        (16667/1000000) "WO-7" "NORMAL" "" "note")
      ⟨2026, 1, 8⟩ ⟨2026, 1, 8, 10, 0, 0⟩ rfl rfl "2026-01-08 10:00:00"
      (by
        rw [show findChild (build_occupation_element 300 "TECH" ⟨2026, 1, 8, 10, 0, 0⟩
          (16667/1000000) "WO-7" "NORMAL" "" "note") "occupation_occupationDate" =
          some ⟨"occupation_occupationDate", [], some (fmt_dt ⟨2026, 1, 8, 10, 0, 0⟩), []⟩
          from rfl]
        rw [safeText_some_strip (pyStrip_fmt_dt _)]
        decide)
      (by decide) (by decide) rfl
    rw [show encodeRecordDoc 300 "TECH" ⟨2026, 1, 8, 10, 0, 0⟩
      (16667/1000000) "WO-7" "NORMAL" "" "note" =
      FileContent.parsed (freshEntities [build_occupation_element 300 "TECH"
        ⟨2026, 1, 8, 10, 0, 0⟩ (16667/1000000) "WO-7" "NORMAL" "" "note"]) from rfl]
    rw [hmain]
    show some (pyRound (safeFloat (safeText (findChild (build_occupation_element 300
      "TECH" ⟨2026, 1, 8, 10, 0, 0⟩ (16667/1000000) "WO-7" "NORMAL" "" "note")
      "occupation_duration") "0")) 3) = some (17/1000)
    rw [show findChild (build_occupation_element 300 "TECH" ⟨2026, 1, 8, 10, 0, 0⟩
      (16667/1000000) "WO-7" "NORMAL" "" "note") "occupation_duration" =
      some ⟨"occupation_duration", [], some (renderFloat6 (16667/1000000 : ℚ)), []⟩
      from rfl]
    rw [show safeText (some (⟨"occupation_duration", [],
      some (renderFloat6 (16667/1000000 : ℚ)), []⟩ : XmlElem)) "0" =
        renderFloat6 (16667/1000000 : ℚ) from by
      show pyStrip (if renderFloat6 (16667/1000000 : ℚ) = "" then "0"
        else renderFloat6 (16667/1000000 : ℚ)) = renderFloat6 (16667/1000000 : ℚ)
      rw [if_neg (renderFloat6_ne_empty _)]
      exact pyStrip_renderFloat6 _]
    rw [safeFloat_renderFloat6 (by norm_num)]
    have h6 : pyRound (16667/1000000 : ℚ) 6 = 16667/1000000 := by
      unfold pyRound
      rw [show ((16667/1000000 : ℚ) * 10 ^ 6) = ((16667 : ℕ) : ℚ) from by norm_num]
      unfold roundHalfEven
      rw [Int.floor_natCast]
      norm_num
    rw [h6]
    have h3 : pyRound (16667/1000000 : ℚ) 3 = 17/1000 := by
      unfold pyRound
      rw [show ((16667/1000000 : ℚ) * 10 ^ 3) = 16667/1000 from by norm_num]
      unfold roundHalfEven
      rw [show ⌊(16667/1000 : ℚ)⌋ = 16 from by
        rw [Int.floor_eq_iff]
        norm_num]
      norm_num
    rw [h3]
  · norm_num

end LabourReporting
